import Mathlib

/-!
Verification of the lab-cleaning-tracker repository.

The repository is a React/Supabase application with two generations of the
same two dashboards:
* `src/src/pages/WorkerDashboard.tsx` and `src/src/pages/AdminDashboard.tsx`;
* the unnamed files `part_002` (an AdminDashboard variant) and `part_003`
  (a WorkerDashboard variant).

This file shallowly embeds the data-manipulating parts of that code:
the assignment status updates (`setStatus`, `updateStatus`), the days-off
resolution (`loadDaysOff`, `toggleWorkerOffDay`, `toggleDayOff`), the weekly
aggregations (`loadWeeklyRotation` from the tsx dashboard, the weekly summary
of `part_002`), and the week-start helpers (`startOfWeekMonday`,
`getWeekStart`).  The daily generation algorithm is a Postgres function
(`generate_daily_assignments`) invoked by RPC and not present in the
repository, so it is modelled from the specification (see `generate` below).

Dates are modelled in two ways, matching the source: the aggregation code of
the dashboards passes ISO date strings around and compares them
lexicographically (which agrees with chronological order for ISO dates), so
those embeddings use `String`; the week-start helpers and the generator work
on calendar days, modelled as an integer count of days since 1970-01-01
(so day 0 is a Thursday and the JavaScript `getDay` of day `n` is
`(n + 4) % 7`, with 0 = Sunday .. 6 = Saturday).
-/


/-- Assignment status, the three-valued `status` column of
`task_assignments` ("not_started" | "in_progress" | "completed"). -/
inductive Status where
  | not_started
  | in_progress
  | completed
deriving DecidableEq, Repr

/-- Forward position of a status in the lifecycle
not_started -> in_progress -> completed. -/
def statusRank : Status → Nat
  | .not_started => 0
  | .in_progress => 1
  | .completed => 2

/-- A row of `task_assignments` as read by WorkerDashboard.tsx:
id, task_id, user_id, status, started_at, completed_at.  Timestamps are
modelled as natural numbers (milliseconds), `Option` for nullable columns. -/
structure Assignment where
  id : Nat
  taskId : Nat
  userId : String
  status : Status
  startedAt : Option Nat
  completedAt : Option Nat
deriving DecidableEq, Repr

/-- `setStatus` from `src/src/pages/WorkerDashboard.tsx` (lines 117-145):
builds a patch with `status = next`, sets `started_at = now` whenever
`next` is in_progress and `completed_at = now` whenever `next` is completed,
and applies it to the row unconditionally (there is no check of the current
status and no error path for an illegal transition). -/
def setStatus (a : Assignment) (next : Status) (now : Nat) : Assignment :=
  { a with
    status := next
    startedAt := if next = .in_progress then some now else a.startedAt
    completedAt := if next = .completed then some now else a.completedAt }

/-- `updateStatus` from `src/unnamed/part_003` (lines 86-108): updates only
the `status` column of the row, unconditionally; timestamps are never
touched by this dashboard. -/
def updateStatus (a : Assignment) (next : Status) : Assignment :=
  { a with status := next }

/-- The Start button guard of WorkerDashboard.tsx:
`disabled = (status !== "not_started")`, so starting is enabled exactly when
the status is not_started. -/
def startEnabled (s : Status) : Bool :=
  s == .not_started

/-- The Complete button guard of WorkerDashboard.tsx:
`disabled = (status === "completed")`, so completing is enabled exactly when
the status is not completed.  (`part_003` renders both buttons with no
guard at all.) -/
def completeEnabled (s : Status) : Bool :=
  s != .completed

/-- JavaScript `Date.prototype.getDay` for day number `n` (days since
1970-01-01, which was a Thursday): 0 = Sunday .. 6 = Saturday. -/
def jsDay (n : Int) : Int :=
  (n + 4) % 7

/-- `startOfWeekMonday` from `src/src/pages/AdminDashboard.tsx`
(lines 46-53): `diff = (day === 0 ? -6 : 1) - day`, then move the date by
`diff` days, landing on the Monday of the Monday-to-Sunday week. -/
def startOfWeekMonday (n : Int) : Int :=
  n + ((if jsDay n = 0 then -6 else 1) - jsDay n)

/-- `getWeekStart` from `src/unnamed/part_002` (lines 72-77):
`d.setDate(d.getDate() - day)`, i.e. move back by the JS weekday, landing on
the Sunday of the Sunday-to-Saturday week. -/
def getWeekStart (n : Int) : Int :=
  n - jsDay n

/-- A row of the `worker_availability` table:
(user_id, weekday 0..6, is_off).  Per the schema's sparse convention, rows
are normally present only for off days, but nothing prevents stored rows
with is_off = false (part_002's toggle leaves such rows behind). -/
structure AvailRow where
  userId : String
  weekday : Nat
  is_off : Bool
deriving DecidableEq, Repr

/-- One step of the map-building loop of `loadDaysOff`:
`if (!map[row.user_id]) map[row.user_id] = new Set(); map[row.user_id].add(weekday)`.
The JS object is modelled as an insertion-ordered association list, the JS
Set as a duplicate-free insertion-ordered list. -/
def insertDayOff : List (String × List Nat) → String → Nat → List (String × List Nat)
  | [], u, w => [(u, [w])]
  | (k, ws) :: rest, u, w =>
      if k == u then (k, if ws.contains w then ws else ws ++ [w]) :: rest
      else (k, ws) :: insertDayOff rest u w

/-- `loadDaysOff` from `src/src/pages/AdminDashboard.tsx` (lines 103-115):
folds over the `worker_availability` rows, skipping rows with
`is_off = false` (`if (!row.is_off) continue`), and collects the off
weekdays per user. -/
def loadDaysOff (rules : List AvailRow) : List (String × List Nat) :=
  rules.foldl (fun m r => if r.is_off then insertDayOff m r.userId r.weekday else m) []

/-- Reading the days-off map: user `u` has weekday `w` marked off.  This is
how the tsx dashboard consumes the map (`daysOffMap[w.user_id]` and
`set.has(idx)` when rendering the checkboxes). -/
def hasDayOff (m : List (String × List Nat)) (u : String) (w : Nat) : Bool :=
  m.any (fun p => p.1 == u && p.2.contains w)

/-- The availability of a worker on a weekday, as resolved by the
dashboards: available exactly when the resolved days-off state has no off
mark for that weekday (absence of a row defaults to available).  This is
the spec's `isAvailable` read off the `loadDaysOff` result. -/
def isAvailable (rules : List AvailRow) (u : String) (w : Nat) : Bool :=
  ! hasDayOff (loadDaysOff rules) u w

/-- Supabase `upsert` on `worker_availability` with
`onConflict: "user_id,weekday"`: if a row for (user, weekday) exists its
is_off flag is replaced, otherwise a new row is appended. -/
def upsertRule (rules : List AvailRow) (u : String) (w : Nat) (b : Bool) : List AvailRow :=
  if rules.any (fun r => r.userId == u && r.weekday == w) then
    rules.map (fun r => if r.userId == u && r.weekday == w then { r with is_off := b } else r)
  else rules ++ [⟨u, w, b⟩]

/-- Supabase `delete().eq(user_id).eq(weekday)`: removes every row for the
(user, weekday) pair. -/
def deleteRule (rules : List AvailRow) (u : String) (w : Nat) : List AvailRow :=
  rules.filter (fun r => !(r.userId == u && r.weekday == w))

/-- `toggleWorkerOffDay` from `src/src/pages/AdminDashboard.tsx`
(lines 259-293), effect on the stored rows: upsert is_off = true when
turning a day off, delete the row when turning it back on. -/
def toggleWorkerOffDay (rules : List AvailRow) (u : String) (w : Nat) (isOff : Bool) :
    List AvailRow :=
  if isOff then upsertRule rules u w true else deleteRule rules u w

/-- `toggleDayOff` from `src/unnamed/part_002` (lines 458-499), effect on
the stored rows: always upserts the new flag, including is_off = false
(it never deletes a row). -/
def toggleDayOff (rules : List AvailRow) (u : String) (w : Nat) (newIsOff : Bool) :
    List AvailRow :=
  upsertRule rules u w newIsOff

/-- There is a stored off row for (u, w): the observable content of the
resolved days-off state. -/
def offWitness (rules : List AvailRow) (u : String) (w : Nat) : Prop :=
  ∃ r ∈ rules, r.is_off = true ∧ r.userId = u ∧ r.weekday = w

/-- Lexicographic order on strings, via their character lists.  This is the
order used to model JS string comparison (`localeCompare`, `<=` on ISO date
strings, `Array.prototype.sort` of names); it agrees with chronological
order on ISO dates.  It is stated on `String.data` so that concrete
instances reduce by evaluation. -/
def strLe (a b : String) : Prop :=
  a.data ≤ b.data

/-- Strict version of `strLe`. -/
def strLt (a b : String) : Prop :=
  a.data < b.data

instance : DecidableRel strLe :=
  fun a b => inferInstanceAs (Decidable (a.data ≤ b.data))

instance : DecidableRel strLt :=
  fun a b => inferInstanceAs (Decidable (a.data < b.data))

/-- A worker profile row as loaded by the admin dashboards
(`profiles` with role = worker): user_id and nullable full_name. -/
structure WorkerP where
  userId : String
  fullName : Option String
deriving DecidableEq, Repr

/-- A `task_assignments` row joined with its task, as consumed by the
weekly aggregations: user_id, the task's date and its room's name
(`row.tasks?.task_date`, `row.tasks?.rooms?.name`; both nullable through
the join). -/
structure AssignRow where
  userId : String
  taskDate : Option String
  roomName : Option String
deriving DecidableEq, Repr

/-- A per-day cell of part_002's weekly summary: `{ count, rooms }`. -/
structure DayCell where
  count : Nat
  rooms : List String
deriving DecidableEq, Repr

/-- A row of part_002's weekly summary (`WeeklySummaryRow`):
user_id, display name, weekly total, and the per-date cells.  The JS
object `perDay` is modelled as an insertion-ordered association list. -/
structure WeeklyRow where
  userId : String
  fullName : String
  total : Nat
  perDay : List (String × DayCell)
deriving DecidableEq, Repr

/-- part_002, lines 395-397: push the room name into the cell only when it
is present and not already included (deduplicated, insertion order kept). -/
def pushRoom (rooms : List String) : Option String → List String
  | none => rooms
  | some name => if rooms.contains name then rooms else rooms ++ [name]

/-- part_002, lines 390-397: find or create the `perDay[taskDate]` cell,
increment its count and push the room name. -/
def bumpDay : List (String × DayCell) → String → Option String → List (String × DayCell)
  | [], d, room => [(d, ⟨1, pushRoom [] room⟩)]
  | (k, c) :: rest, d, room =>
      if k == d then (k, ⟨c.count + 1, pushRoom c.rooms room⟩) :: rest
      else (k, c) :: bumpDay rest d room

/-- part_002, lines 388-397: one assignment row's contribution to a
summary row: total += 1 and the per-day cell update. -/
def addToRow (r : WeeklyRow) (d : String) (room : Option String) : WeeklyRow :=
  { r with total := r.total + 1, perDay := bumpDay r.perDay d room }

/-- part_002, lines 376-386: the summary row created on the fly for a
user id that is not in the seeded map (full_name falls back to the id). -/
def freshWeekly (u : String) : WeeklyRow :=
  ⟨u, u, 0, []⟩

/-- part_002, lines 369-398: apply one assignment row to the summary map
(JS Map keyed by user_id, insertion-ordered; first matching key is the
only matching key since `weeklySet`/`bumpWeekly` never duplicate keys). -/
def bumpWeekly : List WeeklyRow → String → String → Option String → List WeeklyRow
  | [], u, d, room => [addToRow (freshWeekly u) d room]
  | r :: rest, u, d, room =>
      if r.userId == u then addToRow r d room :: rest
      else r :: bumpWeekly rest u d room

/-- part_002, lines 360-367: the zero row each known worker is seeded
with (`full_name || 'Worker'`, total 0, empty perDay). -/
def initWeekly (w : WorkerP) : WeeklyRow :=
  ⟨w.userId, w.fullName.getD "Worker", 0, []⟩

/-- JS `Map.prototype.set` on the insertion-ordered summary map: replace
the first row with the given key, or append. -/
def weeklySet : List WeeklyRow → String → WeeklyRow → List WeeklyRow
  | [], _, v => [v]
  | r :: rest, k, v => if r.userId == k then v :: rest else r :: weeklySet rest k v

/-- part_002, lines 357-367: seed the summary map with every loaded worker
so zero-load workers appear. -/
def seedWeekly (workers : List WorkerP) : List WeeklyRow :=
  workers.foldl (fun m w => weeklySet m w.userId (initWeekly w)) []

/-- Whether an assignment row falls in the queried week
(`gte/lte` on tasks.task_date; rows whose joined task is null are skipped
by the `if (!taskDate) return` guard). -/
def passRange (s e : String) (row : AssignRow) : Bool :=
  match row.taskDate with
  | none => false
  | some d => decide (strLe s d ∧ strLe d e)

/-- One step of part_002's weekly aggregation fold: skip rows without a
task date or outside the queried range, otherwise bump the owning row. -/
def weeklyStep (s e : String) (m : List WeeklyRow) (row : AssignRow) : List WeeklyRow :=
  match row.taskDate with
  | none => m
  | some d => if strLe s d ∧ strLe d e then bumpWeekly m row.userId d row.roomName else m

/-- Ordering of summary rows by display name, part_002's
`sort((a, b) => a.full_name.localeCompare(b.full_name))` modelled with the
lexicographic string order. -/
def nameLe (a b : WeeklyRow) : Prop :=
  strLe a.fullName b.fullName

instance : DecidableRel nameLe :=
  fun a b => inferInstanceAs (Decidable (strLe a.fullName b.fullName))

instance : IsTotal WeeklyRow nameLe :=
  ⟨fun a b => le_total a.fullName.data b.fullName.data⟩

instance : IsTrans WeeklyRow nameLe :=
  ⟨fun _ _ _ h1 h2 => le_trans (α := List Char) h1 h2⟩

/-- `loadWeeklySummary` from `src/unnamed/part_002` (lines 323-406), with
the week bounds passed explicitly (the caller derives them from the anchor
date via `getWeekStart`/`getWeekEnd`): short-circuit to an empty summary
when no workers are loaded, otherwise seed all workers, fold the
assignment rows in, and sort by display name. -/
def summarizeRange (workers : List WorkerP) (data : List AssignRow) (s e : String) :
    List WeeklyRow :=
  if workers.isEmpty then []
  else List.insertionSort nameLe (data.foldl (weeklyStep s e) (seedWeekly workers))

/-- Sum of the per-worker totals of a summary. -/
def totSum (m : List WeeklyRow) : Nat :=
  (m.map (fun r => r.total)).sum

/-- The total carried by a user's summary row: the total of the first row
keyed by `u` (the only one, since the map is key-unique by construction),
0 when no such row exists. -/
def keyTotal : List WeeklyRow → String → Nat
  | [], _ => 0
  | r :: rest, u => if r.userId == u then r.total else keyTotal rest u

/-- A row of the tsx weekly rotation table: date, worker display name,
room names, count. -/
structure RotationRow where
  date : String
  worker : String
  rooms : List String
  total : Nat
deriving DecidableEq, Repr

/-- AdminDashboard.tsx, lines 357-369: find or create the bucket keyed by
(date, worker display name) and push the room name unconditionally
(no deduplication), incrementing the bucket's total. -/
def bumpRotation : List RotationRow → String → String → String → List RotationRow
  | [], d, wkr, room => [⟨d, wkr, [room], 1⟩]
  | r :: rest, d, wkr, room =>
      if r.date == d && r.worker == wkr then
        ⟨r.date, r.worker, r.rooms ++ [room], r.total + 1⟩ :: rest
      else r :: bumpRotation rest d wkr room

/-- One row's contribution in `loadWeeklyRotation`: rows without a task
date are skipped (`if (!date) continue`); missing room and missing profile
fall back to "Unknown room" / "Unknown". -/
def rotationStep (pm : String → Option String) (m : List RotationRow) (row : AssignRow) :
    List RotationRow :=
  match row.taskDate with
  | none => m
  | some d => bumpRotation m d ((pm row.userId).getD "Unknown") (row.roomName.getD "Unknown room")

/-- Ordering of the tsx rotation rows:
`sort((a, b) => a.date.localeCompare(b.date) || a.worker.localeCompare(b.worker))`,
modelled as date-then-worker lexicographic order. -/
def dateWorkerLe (a b : RotationRow) : Prop :=
  strLt a.date b.date ∨ (a.date = b.date ∧ strLe a.worker b.worker)

instance : DecidableRel dateWorkerLe :=
  fun a b => inferInstanceAs (Decidable (strLt a.date b.date ∨ (a.date = b.date ∧ strLe a.worker b.worker)))

instance : IsTotal RotationRow dateWorkerLe :=
  ⟨fun a b => by
    rcases lt_trichotomy a.date.data b.date.data with h | h | h
    · exact Or.inl (Or.inl h)
    · have hd : a.date = b.date := by
        apply String.ext
        exact h
      rcases le_total a.worker.data b.worker.data with hw | hw
      · exact Or.inl (Or.inr ⟨hd, hw⟩)
      · exact Or.inr (Or.inr ⟨hd.symm, hw⟩)
    · exact Or.inr (Or.inl h)⟩

instance : IsTrans RotationRow dateWorkerLe :=
  ⟨fun a b c hab hbc => by
    rcases hab with h1 | ⟨h1, h1w⟩
    · rcases hbc with h2 | ⟨h2, _⟩
      · exact Or.inl (lt_trans (α := List Char) h1 h2)
      · exact Or.inl (by rw [strLt, ← h2]; exact h1)
    · rcases hbc with h2 | ⟨h2, h2w⟩
      · exact Or.inl (by rw [strLt, h1]; exact h2)
      · exact Or.inr ⟨h1.trans h2, le_trans (α := List Char) h1w h2w⟩⟩

/-- `loadWeeklyRotation` from `src/src/pages/AdminDashboard.tsx`
(lines 318-382): fold the week's assignment rows into buckets keyed by
(date, worker name) — built only from the rows themselves, with no
seeding of zero-load workers — then sort each bucket's room list and order
the rows by date then worker name.  `pm` is the user_id -> full_name map
built from the `profiles` query. -/
def loadWeeklyRotation (data : List AssignRow) (pm : String → Option String) :
    List RotationRow :=
  List.insertionSort dateWorkerLe
    ((data.foldl (rotationStep pm) []).map
      (fun r => { r with rooms := List.insertionSort strLe r.rooms }))

instance : IsTotal String strLe :=
  ⟨fun a b => le_total a.data b.data⟩

instance : IsTrans String strLe :=
  ⟨fun _ _ _ h1 h2 => le_trans (α := List Char) h1 h2⟩

/-- Modelled from the spec: the failure kind of the generation algorithm
exercised here (spec section 7). -/
inductive GenError where
  | NoEligibleWorkers
deriving DecidableEq, Repr

/-- An active room as read by generation: id, name, is_harvest. -/
structure Room where
  id : Nat
  name : String
  is_harvest : Bool
deriving DecidableEq, Repr

/-- A `tasks` row: id, task_date (day number), room, cleaning level,
harvest flag. -/
structure TaskRow where
  id : Nat
  taskDate : Int
  roomId : Nat
  levelId : Nat
  isHarvestShift : Bool
deriving DecidableEq, Repr

/-- An active worker as read by generation: user id and display name. -/
structure GWorker where
  userId : String
  name : String
deriving DecidableEq, Repr

/-- The Task/Assignment store state the generation operates on, with the
id counters used for created rows. -/
structure GenState where
  tasks : List TaskRow
  assignments : List Assignment
  nextTaskId : Nat
  nextAssignId : Nat
deriving DecidableEq, Repr

/-- Modelled from the spec (4.2 step 2): the active workers available on
the target date's weekday. -/
def eligibleWorkers (workers : List GWorker) (rules : List AvailRow) (date : Int) :
    List GWorker :=
  workers.filter (fun w => isAvailable rules w.userId (jsDay date).toNat)

/-- Whether an assignment's task falls in the Monday-to-Sunday ISO week of
`date` (spec 4.2 step 3). -/
def taskInWeek (st : GenState) (date : Int) (tid : Nat) : Bool :=
  st.tasks.any (fun t => t.id == tid
    && decide (startOfWeekMonday date ≤ t.taskDate)
    && decide (t.taskDate ≤ startOfWeekMonday date + 6))

/-- Modelled from the spec (4.2 step 3): a worker's load for the ISO week
containing `date` — the count of the worker's assignments whose task date
falls in that Monday-to-Sunday span. -/
def weeklyLoad (st : GenState) (u : String) (date : Int) : Nat :=
  (st.assignments.filter (fun a => a.userId == u && taskInWeek st date a.taskId)).length

/-- Candidate `p` beats candidate `q`: strictly lower load, or equal load
and strictly smaller display name (the spec's deterministic tie-break). -/
def loadBetter (p q : GWorker × Nat) : Bool :=
  p.2 < q.2 || (p.2 == q.2 && decide (strLt p.1.name q.1.name))

/-- The minimum-load worker of a candidate list (name as tie-break),
keeping the earliest listed candidate on exact ties. -/
def pickMin : List (GWorker × Nat) → Option (GWorker × Nat)
  | [] => none
  | p :: rest =>
      match pickMin rest with
      | none => some p
      | some q => some (if loadBetter q p then q else p)

/-- Increment the in-memory load counter of the chosen worker
(spec 4.2 step 4). -/
def bumpLoad (loads : List (GWorker × Nat)) (u : String) : List (GWorker × Nat) :=
  loads.map (fun p => if p.1.userId == u then (p.1, p.2 + 1) else p)

/-- Modelled from the spec (4.2 step 5): draw `n` distinct workers for one
task, each time the minimum-load one not yet chosen, bumping loads; stops
early when all eligible workers are already on the task. -/
def chooseCrew : Nat → List (GWorker × Nat) → List String → List String × List (GWorker × Nat)
  | 0, loads, _ => ([], loads)
  | n + 1, loads, chosen =>
      match pickMin (loads.filter (fun p => !(chosen.contains p.1.userId))) with
      | none => ([], loads)
      | some p =>
          let res := chooseCrew n (bumpLoad loads p.1.userId) (p.1.userId :: chosen)
          (p.1.userId :: res.1, res.2)

/-- The latest-dated task of a list (the room's most recent prior
occurrence). -/
def latestPrior : List TaskRow → Option TaskRow
  | [] => none
  | t :: ts =>
      match latestPrior ts with
      | none => some t
      | some u => some (if decide (t.taskDate < u.taskDate) then u else t)

/-- Modelled from the spec (4.2 step 4): the carry-forward cleaning level —
the level of the room's most recent prior task, defaulting to L1
(level id 1). -/
def carryLevel (st : GenState) (r : Room) (date : Int) : Nat :=
  match latestPrior (st.tasks.filter (fun t => t.roomId == r.id && decide (t.taskDate < date))) with
  | none => 1
  | some t => t.levelId

/-- The created Assignment rows for one task, one per chosen worker, all
not_started with null timestamps. -/
def assignRows (startId : Nat) (tid : Nat) : List String → List Assignment
  | [] => []
  | u :: us => ⟨startId, tid, u, .not_started, none, none⟩ :: assignRows (startId + 1) tid us

/-- Ordering of rooms by id (spec 4.2 step 4: rooms processed in id
order). -/
def roomIdLe (a b : Room) : Prop :=
  a.id ≤ b.id

instance : DecidableRel roomIdLe :=
  fun a b => inferInstanceAs (Decidable (a.id ≤ b.id))

instance : IsTotal Room roomIdLe :=
  ⟨fun a b => Nat.le_total a.id b.id⟩

instance : IsTrans Room roomIdLe :=
  ⟨fun _ _ _ h1 h2 => Nat.le_trans h1 h2⟩

/-- A room already holds a task for the date (spec 4.2 step 1's idempotent
skip). -/
def roomCovered (st : GenState) (r : Room) (date : Int) : Bool :=
  st.tasks.any (fun t => t.roomId == r.id && t.taskDate == date)

/-- The active rooms not yet holding a task for the date. -/
def pendingRooms (rooms : List Room) (st : GenState) (date : Int) : List Room :=
  rooms.filter (fun r => !(roomCovered st r date))

/-- Modelled from the spec (4.2 step 4): process the pending rooms in
order, creating one task each (carry-forward level, harvest flag copied
from the room) plus its crew of assignments, threading loads and counters. -/
def genLoop (date : Int) (crewSize : Nat) :
    List Room → GenState → List (GWorker × Nat) → Nat → Nat → GenState × Nat × Nat
  | [], st, _, tc, ac => (st, tc, ac)
  | r :: rs, st, loads, tc, ac =>
      let pick := chooseCrew (if r.is_harvest then crewSize else 1) loads []
      genLoop date crewSize rs
        { tasks := st.tasks ++ [⟨st.nextTaskId, date, r.id, carryLevel st r date, r.is_harvest⟩]
          assignments := st.assignments ++ assignRows st.nextAssignId st.nextTaskId pick.1
          nextTaskId := st.nextTaskId + 1
          nextAssignId := st.nextAssignId + pick.1.length }
        pick.2 (tc + 1) (ac + pick.1.length)

/-- The full generation pass over the pending rooms of `date`. -/
def generateRun (crewSize : Nat) (rooms : List Room) (workers : List GWorker)
    (rules : List AvailRow) (st : GenState) (date : Int) : GenState × Nat × Nat :=
  genLoop date crewSize (List.insertionSort roomIdLe (pendingRooms rooms st date)) st
    ((eligibleWorkers workers rules date).map (fun w => (w, weeklyLoad st w.userId date))) 0 0

/-- Modelled from the spec: `generate(date)` (spec 4.2), the Postgres
function `generate_daily_assignments` invoked by both admin dashboards but
absent from the repository.  Returns the resulting store state together
with either the created (tasks, assignments) counts or the failure: when
the eligible worker set is empty the operation fails fast with
NoEligibleWorkers and the state is returned unchanged (all-or-nothing,
spec 4.2 step 2 and section 7). -/
def generate (crewSize : Nat) (rooms : List Room) (workers : List GWorker)
    (rules : List AvailRow) (st : GenState) (date : Int) :
    GenState × Except GenError (Nat × Nat) :=
  if (eligibleWorkers workers rules date).isEmpty then
    (st, .error .NoEligibleWorkers)
  else
    ((generateRun crewSize rooms workers rules st date).1,
      .ok ((generateRun crewSize rooms workers rules st date).2.1,
        (generateRun crewSize rooms workers rules st date).2.2))

/-- C1 counterexample.  The claim says a regressing transition
(completed -> in_progress, completed -> not_started) fails with
IllegalTransition and leaves the Assignment unchanged.  On a completed
assignment, `setStatus` (tsx) with target in_progress succeeds and changes
the row (status regresses and started_at is even re-stamped), and
`updateStatus` (part_003) with target not_started likewise succeeds and
changes the row; neither operation has any error path. -/
theorem setStatus_regresses_completed :
    (setStatus ⟨1, 1, "w", .completed, some 5, some 6⟩ .in_progress 9).status
        = .in_progress
    ∧ setStatus ⟨1, 1, "w", .completed, some 5, some 6⟩ .in_progress 9
        ≠ ⟨1, 1, "w", .completed, some 5, some 6⟩
    ∧ (updateStatus ⟨1, 1, "w", .completed, some 5, some 6⟩ .not_started).status
        = .not_started
    ∧ updateStatus ⟨1, 1, "w", .completed, some 5, some 6⟩ .not_started
        ≠ ⟨1, 1, "w", .completed, some 5, some 6⟩ := by
  decide

/-- C1 (amended): the update operations themselves never reject anything,
but in WorkerDashboard.tsx a transition can only be initiated through the
Start/Complete buttons, and their guards allow only strictly forward moves:
whenever a button is enabled for target `next`, applying `setStatus` strictly
increases the status rank, so no regression is reachable through that UI. -/
theorem guarded_setStatus_never_regresses (a : Assignment) (next : Status)
    (now : Nat)
    (h : (next = .in_progress ∧ startEnabled a.status = true)
        ∨ (next = .completed ∧ completeEnabled a.status = true)) :
    statusRank a.status < statusRank (setStatus a next now).status := by
  have hst : (setStatus a next now).status = next := rfl
  rw [hst]
  rcases h with ⟨hn, hg⟩ | ⟨hn, hg⟩ <;> subst hn <;>
    cases ha : a.status <;> rw [ha] at hg <;> simp_all [startEnabled, completeEnabled, statusRank]

/-- Witness for the C1 amended theorem at a concrete input: a not_started
assignment with the Start button enabled, started via `setStatus`. -/
theorem guarded_setStatus_never_regresses_witness :
    (Status.in_progress = Status.in_progress
      ∧ startEnabled (Assignment.mk 1 1 "w" .not_started none none).status = true)
    ∧ statusRank (Assignment.mk 1 1 "w" .not_started none none).status
        < statusRank (setStatus (Assignment.mk 1 1 "w" .not_started none none) .in_progress 3).status :=
  ⟨⟨rfl, by decide⟩,
    guarded_setStatus_never_regresses (Assignment.mk 1 1 "w" .not_started none none)
      .in_progress 3 (Or.inl ⟨rfl, by decide⟩)⟩

/-- C2 counterexample.  The claim says started_at is stamped only if it was
previously null and is never overwritten by a repeated transition to the
same state.  `setStatus` (tsx) stamps unconditionally: transitioning an
already in_progress assignment (started_at = 5) to in_progress again
overwrites started_at with the new clock value 9. -/
theorem setStatus_overwrites_startedAt :
    (setStatus ⟨1, 1, "w", .in_progress, some 5, none⟩ .in_progress 9).startedAt = some 9
    ∧ (⟨1, 1, "w", .in_progress, some 5, none⟩ : Assignment).startedAt = some 5 := by
  decide

/-- C2 (amended): `setStatus` stamps started_at with the current time on
every transition to in_progress and completed_at on every transition to
completed, overwriting any previous value (not only when null); the
untouched timestamp and all other fields (id, task id, user id) are
unchanged.  `part_003`'s `updateStatus` changes only the status and never
touches either timestamp. -/
theorem setStatus_timestamp_frame (a : Assignment) (now : Nat) :
    (setStatus a .in_progress now).startedAt = some now
    ∧ (setStatus a .in_progress now).completedAt = a.completedAt
    ∧ (setStatus a .completed now).completedAt = some now
    ∧ (setStatus a .completed now).startedAt = a.startedAt
    ∧ (∀ next, (setStatus a next now).id = a.id
        ∧ (setStatus a next now).taskId = a.taskId
        ∧ (setStatus a next now).userId = a.userId)
    ∧ (∀ next, (updateStatus a next).startedAt = a.startedAt
        ∧ (updateStatus a next).completedAt = a.completedAt
        ∧ (updateStatus a next).id = a.id
        ∧ (updateStatus a next).taskId = a.taskId
        ∧ (updateStatus a next).userId = a.userId) := by
  refine ⟨rfl, by simp [setStatus], rfl, by simp [setStatus], ?_, ?_⟩
  · intro next; exact ⟨rfl, rfl, rfl⟩
  · intro next; exact ⟨rfl, rfl, rfl, rfl, rfl⟩

/-- C8 counterexample.  The claim says the two week-start helpers return the
same Monday for every input date.  On day 0 (Thursday 1970-01-01),
`startOfWeekMonday` (tsx) returns day -3 (Monday 1969-12-29) while
`getWeekStart` (part_002) returns day -4 (Sunday 1969-12-28). -/
theorem weekStart_helpers_disagree :
    startOfWeekMonday 0 = -3 ∧ getWeekStart 0 = -4
    ∧ startOfWeekMonday 0 ≠ getWeekStart 0 := by
  decide

/-- C8 (amended): the two dashboards use different week conventions.
`startOfWeekMonday` (tsx) always lands on a Monday (jsDay 1) and
`getWeekStart` (part_002) always lands on a Sunday (jsDay 0); for a
non-Sunday input the tsx Monday is one day after the part_002 Sunday, while
for a Sunday input it is six days before it.  The conventions are therefore
not consistent system-wide. -/
theorem weekStart_helpers_relation (n : Int) :
    jsDay (startOfWeekMonday n) = 1
    ∧ jsDay (getWeekStart n) = 0
    ∧ startOfWeekMonday n = getWeekStart n + (if jsDay n = 0 then -6 else 1) := by
  unfold startOfWeekMonday getWeekStart jsDay
  by_cases h : (n + 4) % 7 = 0 <;> simp only [h, if_pos, if_neg, not_false_iff] <;>
    refine ⟨?_, ?_, ?_⟩ <;> omega


theorem hasDayOff_insertDayOff (m : List (String × List Nat)) (u' u : String) (w' w : Nat) :
    hasDayOff (insertDayOff m u' w') u w = true
      ↔ hasDayOff m u w = true ∨ (u' = u ∧ w = w') := by
  induction m with
  | nil => simp [insertDayOff, hasDayOff]
  | cons p rest ih =>
      obtain ⟨k, ws⟩ := p
      by_cases hk : (k == u') = true
      · have hk' : k = u' := by simpa using hk
        subst hk'
        by_cases hw : ws.contains w' = true
        · have hw' : w' ∈ ws := by simpa using hw
          simp only [insertDayOff, hk, if_pos, hw]
          simp only [hasDayOff, List.any_cons, Bool.or_eq_true, Bool.and_eq_true,
            beq_iff_eq]
          constructor
          · rintro (⟨h1, h2⟩ | h)
            · exact Or.inl (Or.inl ⟨h1, h2⟩)
            · exact Or.inl (Or.inr h)
          · rintro ((⟨h1, h2⟩ | h) | ⟨h1, h2⟩)
            · exact Or.inl ⟨h1, h2⟩
            · exact Or.inr h
            · subst h1; subst h2
              exact Or.inl ⟨rfl, by simpa using hw'⟩
        · simp only [insertDayOff, hk, if_pos, hw, if_neg]
          simp only [hasDayOff, List.any_cons, Bool.or_eq_true, Bool.and_eq_true,
            beq_iff_eq]
          constructor
          · rintro (⟨h1, h2⟩ | h)
            · rcases (by simpa using h2 : w ∈ ws ∨ w = w') with h2' | h2'
              · exact Or.inl (Or.inl ⟨h1, by simpa using h2'⟩)
              · exact Or.inr ⟨h1, h2'⟩
            · exact Or.inl (Or.inr h)
          · rintro ((⟨h1, h2⟩ | h) | ⟨h1, h2⟩)
            · have : w ∈ ws := by simpa using h2
              exact Or.inl ⟨h1, by simp [this]⟩
            · exact Or.inr h
            · subst h1; subst h2
              exact Or.inl ⟨rfl, by simp⟩
      · simp only [insertDayOff, hk, if_neg, Bool.not_eq_true]
        simp only [hasDayOff, List.any_cons, Bool.or_eq_true] at ih ⊢
        rw [ih, ← or_assoc]

theorem hasDayOff_loadDaysOff_aux (rules : List AvailRow)
    (m : List (String × List Nat)) (u : String) (w : Nat) :
    hasDayOff (rules.foldl
        (fun m r => if r.is_off then insertDayOff m r.userId r.weekday else m) m) u w = true
      ↔ hasDayOff m u w = true ∨ offWitness rules u w := by
  induction rules generalizing m with
  | nil => simp [offWitness]
  | cons r rs ih =>
      simp only [List.foldl_cons]
      rw [ih]
      by_cases hoff : r.is_off = true
      · simp only [hoff, if_pos, hasDayOff_insertDayOff, offWitness, List.mem_cons]
        constructor
        · rintro ((h | ⟨h1, h2⟩) | ⟨x, hx, h3, h4, h5⟩)
          · exact Or.inl h
          · exact Or.inr ⟨r, Or.inl rfl, hoff, h1, h2.symm⟩
          · exact Or.inr ⟨x, Or.inr hx, h3, h4, h5⟩
        · rintro (h | ⟨x, (hx | hx), h3, h4, h5⟩)
          · exact Or.inl (Or.inl h)
          · subst hx; exact Or.inl (Or.inr ⟨h4, h5.symm⟩)
          · exact Or.inr ⟨x, hx, h3, h4, h5⟩
      · have hoff' : r.is_off = false := by simpa using hoff
        simp only [hoff', Bool.false_eq_true, if_neg, not_false_iff, offWitness,
          List.mem_cons]
        constructor
        · rintro (h | ⟨x, hx, h3, h4, h5⟩)
          · exact Or.inl h
          · exact Or.inr ⟨x, Or.inr hx, h3, h4, h5⟩
        · rintro (h | ⟨x, (hx | hx), h3, h4, h5⟩)
          · exact Or.inl h
          · subst hx; rw [hoff'] at h3; exact absurd h3 (by simp)
          · exact Or.inr ⟨x, hx, h3, h4, h5⟩

/-- The resolved days-off state reads back exactly the stored off rows. -/
theorem hasDayOff_loadDaysOff (rules : List AvailRow) (u : String) (w : Nat) :
    hasDayOff (loadDaysOff rules) u w = true ↔ offWitness rules u w := by
  rw [loadDaysOff, hasDayOff_loadDaysOff_aux]
  simp [hasDayOff]

theorem offWitness_deleteRule (rules : List AvailRow) (u u' : String) (w w' : Nat) :
    offWitness (deleteRule rules u w) u' w'
      ↔ ∃ r ∈ rules, r.is_off = true ∧ r.userId = u' ∧ r.weekday = w'
          ∧ ¬(r.userId = u ∧ r.weekday = w) := by
  simp only [offWitness, deleteRule, List.mem_filter, Bool.not_eq_true',
    Bool.and_eq_false_iff, beq_eq_false_iff_ne, ne_eq]
  constructor
  · rintro ⟨r, ⟨hr, hcond⟩, h1, h2, h3⟩
    refine ⟨r, hr, h1, h2, h3, ?_⟩
    rintro ⟨e1, e2⟩
    rcases hcond with hc | hc <;> exact hc (by simp [e1, e2])
  · rintro ⟨r, hr, h1, h2, h3, h4⟩
    refine ⟨r, ⟨hr, ?_⟩, h1, h2, h3⟩
    by_cases e1 : r.userId = u
    · exact Or.inr (by simpa using fun e2 => h4 ⟨e1, e2⟩)
    · exact Or.inl (by simpa using e1)

theorem offWitness_upsertRule_false (rules : List AvailRow) (u u' : String) (w w' : Nat) :
    offWitness (upsertRule rules u w false) u' w'
      ↔ ∃ r ∈ rules, r.is_off = true ∧ r.userId = u' ∧ r.weekday = w'
          ∧ ¬(r.userId = u ∧ r.weekday = w) := by
  by_cases hex : rules.any (fun r => r.userId == u && r.weekday == w) = true
  · simp only [upsertRule, hex, if_pos, offWitness, List.mem_map]
    constructor
    · rintro ⟨y, ⟨r, hr, hfr⟩, h1, h2, h3⟩
      by_cases hc : (r.userId == u && r.weekday == w) = true
      · rw [if_pos hc] at hfr
        subst hfr
        exact absurd h1 (by simp)
      · rw [if_neg hc] at hfr
        subst hfr
        exact ⟨r, hr, h1, h2, h3, fun he => hc (by simp [he.1, he.2])⟩
    · rintro ⟨r, hr, h1, h2, h3, h4⟩
      have hc : ¬(r.userId == u && r.weekday == w) = true := by
        simpa using h4
      exact ⟨r, ⟨r, hr, if_neg hc⟩, h1, h2, h3⟩
  · have hall : ∀ r ∈ rules, ¬(r.userId = u ∧ r.weekday = w) := by
      intro r hr hcon
      exact hex (List.any_eq_true.mpr ⟨r, hr, by simp [hcon.1, hcon.2]⟩)
    rw [upsertRule, if_neg hex]
    simp only [offWitness, List.mem_append, List.mem_singleton]
    constructor
    · rintro ⟨r, hr | hr, h1, h2, h3⟩
      · exact ⟨r, hr, h1, h2, h3, hall r hr⟩
      · subst hr
        exact absurd h1 (by simp)
    · rintro ⟨r, hr, h1, h2, h3, _⟩
      exact ⟨r, Or.inl hr, h1, h2, h3⟩

/-- C3: for every worker and weekday, availability as resolved by
`loadDaysOff` is false exactly when a stored `worker_availability` row with
is_off = true exists for that worker and weekday (absence of a row defaults
to available), and `toggleWorkerOffDay` immediately flips the result: after
toggling with flag `b` the worker's availability on that weekday is `!b`. -/
theorem isAvailable_iff_off_row_and_toggle_flips
    (rules : List AvailRow) (u : String) (w : Nat) (b : Bool) :
    (isAvailable rules u w = false
      ↔ ∃ r ∈ rules, r.userId = u ∧ r.weekday = w ∧ r.is_off = true)
    ∧ isAvailable (toggleWorkerOffDay rules u w b) u w = !b := by
  constructor
  · rw [isAvailable, Bool.not_eq_false', hasDayOff_loadDaysOff]
    constructor
    · rintro ⟨r, hr, h1, h2, h3⟩
      exact ⟨r, hr, h2, h3, h1⟩
    · rintro ⟨r, hr, h2, h3, h1⟩
      exact ⟨r, hr, h1, h2, h3⟩
  · cases b with
    | true =>
        rw [toggleWorkerOffDay, if_pos rfl]
        have hday : hasDayOff (loadDaysOff (upsertRule rules u w true)) u w = true := by
          rw [hasDayOff_loadDaysOff]
          by_cases hex : rules.any (fun r => r.userId == u && r.weekday == w) = true
          · obtain ⟨r, hr, hc⟩ := List.any_eq_true.mp hex
            have h1 : r.userId = u := by
              have := (Bool.and_eq_true _ _).mp hc
              simpa using this.1
            have h2 : r.weekday = w := by
              have := (Bool.and_eq_true _ _).mp hc
              simpa using this.2
            refine ⟨{ r with is_off := true }, ?_, rfl, h1, h2⟩
            rw [upsertRule, if_pos hex]
            exact List.mem_map.mpr ⟨r, hr, by rw [if_pos hc]⟩
          · refine ⟨⟨u, w, true⟩, ?_, rfl, rfl, rfl⟩
            rw [upsertRule, if_neg hex]
            exact List.mem_append.mpr (Or.inr (List.mem_singleton.mpr rfl))
        simp [isAvailable, hday]
    | false =>
        rw [toggleWorkerOffDay, if_neg (by simp)]
        have hday : hasDayOff (loadDaysOff (deleteRule rules u w)) u w = false := by
          rw [Bool.eq_false_iff]
          intro hcon
          rw [hasDayOff_loadDaysOff, offWitness_deleteRule] at hcon
          obtain ⟨r, _, _, h2, h3, h4⟩ := hcon
          exact h4 ⟨h2, h3⟩
        simp [isAvailable, hday]

/-- C10: the resolved days-off state depends only on the rows whose is_off
flag is true.  Any two availability lists containing the same off rows
resolve to the same map, and in particular `toggleDayOff` of part_002
(which clears a day off by upserting is_off = false, leaving the row
behind) is observationally identical to `toggleWorkerOffDay` of the tsx
dashboard (which deletes the row). -/
theorem loadDaysOff_ignores_false_rows
    (rules1 rules2 : List AvailRow)
    (h : ∀ r : AvailRow, (r ∈ rules1 ∧ r.is_off = true) ↔ (r ∈ rules2 ∧ r.is_off = true)) :
    (∀ u w, hasDayOff (loadDaysOff rules1) u w = hasDayOff (loadDaysOff rules2) u w)
    ∧ ∀ (rules : List AvailRow) (u u' : String) (w w' : Nat),
        hasDayOff (loadDaysOff (toggleDayOff rules u w false)) u' w'
          = hasDayOff (loadDaysOff (toggleWorkerOffDay rules u w false)) u' w' := by
  constructor
  · intro u w
    rw [Bool.eq_iff_iff, hasDayOff_loadDaysOff, hasDayOff_loadDaysOff]
    constructor
    · rintro ⟨r, hr, h1, h2, h3⟩
      exact ⟨r, ((h r).mp ⟨hr, h1⟩).1, h1, h2, h3⟩
    · rintro ⟨r, hr, h1, h2, h3⟩
      exact ⟨r, ((h r).mpr ⟨hr, h1⟩).1, h1, h2, h3⟩
  · intro rules u u' w w'
    rw [Bool.eq_iff_iff, hasDayOff_loadDaysOff, hasDayOff_loadDaysOff,
      toggleDayOff, toggleWorkerOffDay, if_neg (by simp),
      offWitness_upsertRule_false, offWitness_deleteRule]

/-- Witness for C10 at concrete inputs: a list with an extra is_off = false
row resolves identically to the list without it, checked at the stored off
day and at the day carrying the false row. -/
theorem loadDaysOff_ignores_false_rows_witness :
    (∀ r : AvailRow, (r ∈ [⟨"a", 1, true⟩, ⟨"a", 2, false⟩] ∧ r.is_off = true)
        ↔ (r ∈ ([⟨"a", 1, true⟩] : List AvailRow) ∧ r.is_off = true))
    ∧ hasDayOff (loadDaysOff [⟨"a", 1, true⟩, ⟨"a", 2, false⟩]) "a" 1
        = hasDayOff (loadDaysOff [⟨"a", 1, true⟩]) "a" 1
    ∧ hasDayOff (loadDaysOff [⟨"a", 1, true⟩, ⟨"a", 2, false⟩]) "a" 2
        = hasDayOff (loadDaysOff [⟨"a", 1, true⟩]) "a" 2 := by
  have hyp : ∀ r : AvailRow, (r ∈ [⟨"a", 1, true⟩, ⟨"a", 2, false⟩] ∧ r.is_off = true)
      ↔ (r ∈ ([⟨"a", 1, true⟩] : List AvailRow) ∧ r.is_off = true) := by
    intro r
    constructor
    · rintro ⟨hm, ho⟩
      rcases List.mem_cons.mp hm with he | hm2
      · exact ⟨by simp [he], ho⟩
      · rcases List.mem_cons.mp hm2 with he | hm3
        · rw [he] at ho; exact absurd ho (by simp)
        · exact absurd hm3 (List.not_mem_nil r)
    · rintro ⟨hm, ho⟩
      exact ⟨List.mem_cons.mpr (Or.inl (List.mem_singleton.mp hm)), ho⟩
  refine ⟨hyp, ?_, ?_⟩
  · exact (loadDaysOff_ignores_false_rows _ _ hyp).1 "a" 1
  · exact (loadDaysOff_ignores_false_rows _ _ hyp).1 "a" 2

theorem mem_weeklySet {m : List WeeklyRow} {k : String} {v r : WeeklyRow}
    (h : r ∈ weeklySet m k v) : r ∈ m ∨ r = v := by
  induction m with
  | nil => simpa [weeklySet] using h
  | cons x rest ih =>
      simp only [weeklySet] at h
      by_cases hx : (x.userId == k) = true
      · rw [if_pos hx] at h
        rcases List.mem_cons.mp h with he | hm
        · exact Or.inr he
        · exact Or.inl (List.mem_cons.mpr (Or.inr hm))
      · rw [if_neg hx] at h
        rcases List.mem_cons.mp h with he | hm
        · exact Or.inl (List.mem_cons.mpr (Or.inl he))
        · rcases ih hm with h1 | h1
          · exact Or.inl (List.mem_cons.mpr (Or.inr h1))
          · exact Or.inr h1

theorem self_mem_weeklySet (m : List WeeklyRow) (k : String) (v : WeeklyRow) :
    v ∈ weeklySet m k v := by
  induction m with
  | nil => simp [weeklySet]
  | cons x rest ih =>
      simp only [weeklySet]
      by_cases hx : (x.userId == k) = true
      · rw [if_pos hx]; exact List.mem_cons_self _ _
      · rw [if_neg hx]; exact List.mem_cons.mpr (Or.inr ih)

theorem hasKey_weeklySet {m : List WeeklyRow} {k x : String} {v : WeeklyRow}
    (hv : v.userId = k) (h : ∃ r ∈ m, r.userId = x) :
    ∃ r ∈ weeklySet m k v, r.userId = x := by
  induction m with
  | nil =>
      obtain ⟨r, hr, _⟩ := h
      exact absurd hr (List.not_mem_nil r)
  | cons y rest ih =>
      obtain ⟨r, hr, hrx⟩ := h
      simp only [weeklySet]
      by_cases hy : (y.userId == k) = true
      · rw [if_pos hy]
        rcases List.mem_cons.mp hr with he | hm
        · have hk : y.userId = k := by simpa using hy
          refine ⟨v, List.mem_cons_self _ _, ?_⟩
          rw [hv, ← hk, ← he]
          exact hrx
        · exact ⟨r, List.mem_cons.mpr (Or.inr hm), hrx⟩
      · rw [if_neg hy]
        rcases List.mem_cons.mp hr with he | hm
        · exact ⟨y, List.mem_cons_self _ _, he ▸ hrx⟩
        · obtain ⟨r2, hr2, hr2x⟩ := ih ⟨r, hm, hrx⟩
          exact ⟨r2, List.mem_cons.mpr (Or.inr hr2), hr2x⟩

theorem seed_hasKey_aux (workers : List WorkerP) (m : List WeeklyRow) (x : String)
    (h : (∃ r ∈ m, r.userId = x) ∨ ∃ w ∈ workers, w.userId = x) :
    ∃ r ∈ workers.foldl (fun m w => weeklySet m w.userId (initWeekly w)) m,
      r.userId = x := by
  induction workers generalizing m with
  | nil =>
      refine h.resolve_right ?_
      rintro ⟨w, hw, _⟩
      exact absurd hw (List.not_mem_nil w)
  | cons w ws ih =>
      simp only [List.foldl_cons]
      apply ih
      rcases h with hm | ⟨w2, hw2, hwx⟩
      · exact Or.inl (hasKey_weeklySet rfl hm)
      · rcases List.mem_cons.mp hw2 with he | hm2
        · subst he
          exact Or.inl ⟨initWeekly w2, self_mem_weeklySet _ _ _, hwx⟩
        · exact Or.inr ⟨w2, hm2, hwx⟩

theorem hasKey_bumpWeekly {m : List WeeklyRow} {u d : String} {room : Option String}
    {x : String} (h : ∃ r ∈ m, r.userId = x) :
    ∃ r ∈ bumpWeekly m u d room, r.userId = x := by
  induction m with
  | nil =>
      obtain ⟨r, hr, _⟩ := h
      exact absurd hr (List.not_mem_nil r)
  | cons y rest ih =>
      obtain ⟨r, hr, hrx⟩ := h
      simp only [bumpWeekly]
      by_cases hy : (y.userId == u) = true
      · rw [if_pos hy]
        rcases List.mem_cons.mp hr with he | hm
        · subst he
          exact ⟨addToRow r d room, List.mem_cons_self _ _, hrx⟩
        · exact ⟨r, List.mem_cons.mpr (Or.inr hm), hrx⟩
      · rw [if_neg hy]
        rcases List.mem_cons.mp hr with he | hm
        · exact ⟨y, List.mem_cons_self _ _, he ▸ hrx⟩
        · obtain ⟨r2, hr2, hr2x⟩ := ih ⟨r, hm, hrx⟩
          exact ⟨r2, List.mem_cons.mpr (Or.inr hr2), hr2x⟩

theorem hasKey_weeklyStep {s e : String} {m : List WeeklyRow} {row : AssignRow}
    {x : String} (h : ∃ r ∈ m, r.userId = x) :
    ∃ r ∈ weeklyStep s e m row, r.userId = x := by
  cases hrow : row.taskDate with
  | none => simpa [weeklyStep, hrow] using h
  | some d =>
      simp only [weeklyStep, hrow]
      split
      · exact hasKey_bumpWeekly h
      · exact h

theorem hasKey_foldl_weeklyStep {s e : String} (data : List AssignRow)
    (m : List WeeklyRow) {x : String} (h : ∃ r ∈ m, r.userId = x) :
    ∃ r ∈ data.foldl (weeklyStep s e) m, r.userId = x := by
  induction data generalizing m with
  | nil => exact h
  | cons row rows ih =>
      simp only [List.foldl_cons]
      exact ih _ (hasKey_weeklyStep h)

theorem totSum_bumpWeekly (m : List WeeklyRow) (u d : String) (room : Option String) :
    totSum (bumpWeekly m u d room) = totSum m + 1 := by
  induction m with
  | nil => simp [bumpWeekly, totSum, addToRow, freshWeekly]
  | cons y rest ih =>
      simp only [bumpWeekly]
      by_cases hy : (y.userId == u) = true
      · rw [if_pos hy]
        simp only [totSum, List.map_cons, List.sum_cons, addToRow]
        omega
      · rw [if_neg hy]
        simp only [totSum, List.map_cons, List.sum_cons] at ih ⊢
        omega

theorem totSum_weeklyStep (s e : String) (m : List WeeklyRow) (row : AssignRow) :
    totSum (weeklyStep s e m row) = totSum m + (if passRange s e row then 1 else 0) := by
  cases hrow : row.taskDate with
  | none => simp [weeklyStep, passRange, hrow]
  | some d =>
      simp only [weeklyStep, passRange, hrow]
      by_cases hc : strLe s d ∧ strLe d e
      · simp [hc, totSum_bumpWeekly]
      · simp [hc]

theorem totSum_foldl_weeklyStep (s e : String) (data : List AssignRow)
    (m : List WeeklyRow) :
    totSum (data.foldl (weeklyStep s e) m) = totSum m + data.countP (passRange s e) := by
  induction data generalizing m with
  | nil => simp
  | cons row rows ih =>
      simp only [List.foldl_cons, List.countP_cons, ih, totSum_weeklyStep]
      by_cases hp : passRange s e row = true
      · simp only [hp, if_pos]
        omega
      · simp only [hp, if_neg, Bool.not_eq_true]
        omega

theorem seed_prop (P : WeeklyRow → Prop) (hP : ∀ w, P (initWeekly w))
    (workers : List WorkerP) (m : List WeeklyRow) (hm : ∀ r ∈ m, P r) :
    ∀ r ∈ workers.foldl (fun m w => weeklySet m w.userId (initWeekly w)) m, P r := by
  induction workers generalizing m with
  | nil => exact hm
  | cons w ws ih =>
      simp only [List.foldl_cons]
      apply ih
      intro r hr
      rcases mem_weeklySet hr with h | h
      · exact hm r h
      · rw [h]; exact hP w

theorem totSum_eq_zero (m : List WeeklyRow) (h : ∀ r ∈ m, r.total = 0) :
    totSum m = 0 := by
  induction m with
  | nil => rfl
  | cons y rest ih =>
      simp only [totSum, List.map_cons, List.sum_cons]
      rw [h y (List.mem_cons_self _ _)]
      simpa [totSum] using ih (fun r hr => h r (List.mem_cons.mpr (Or.inr hr)))

theorem totSum_insertionSort (l : List WeeklyRow) :
    totSum (List.insertionSort nameLe l) = totSum l := by
  have hp := List.perm_insertionSort nameLe l
  simpa [totSum] using List.Perm.sum_eq (hp.map (fun r => r.total))

theorem keyTotal_bumpWeekly (m : List WeeklyRow) (u' d : String)
    (room : Option String) (u : String) :
    keyTotal (bumpWeekly m u' d room) u = keyTotal m u + (if u' = u then 1 else 0) := by
  induction m with
  | nil =>
      simp only [bumpWeekly, keyTotal]
      by_cases hu : u' = u
      · rw [if_pos (show ((addToRow (freshWeekly u') d room).userId == u) = true by
            simp [addToRow, freshWeekly, hu]), if_pos hu]
        simp [addToRow, freshWeekly]
      · rw [if_neg (show ¬ ((addToRow (freshWeekly u') d room).userId == u) = true by
            simp [addToRow, freshWeekly, hu]), if_neg hu]
  | cons y rest ih =>
      simp only [bumpWeekly]
      by_cases hy : (y.userId == u') = true
      · rw [if_pos hy]
        simp only [keyTotal]
        by_cases hyu : (y.userId == u) = true
        · have hu : u' = u := by
            have h1 : y.userId = u' := by simpa using hy
            have h2 : y.userId = u := by simpa using hyu
            rw [← h1, h2]
          rw [if_pos (show ((addToRow y d room).userId == u) = true from hyu),
            if_pos hyu, if_pos hu]
          simp [addToRow]
        · have hu : ¬ u' = u := by
            intro he
            have h1 : y.userId = u' := by simpa using hy
            exact hyu (by simp [h1, he])
          rw [if_neg (show ¬ ((addToRow y d room).userId == u) = true from hyu),
            if_neg hyu, if_neg hu]
          exact (Nat.add_zero _).symm
      · rw [if_neg hy]
        simp only [keyTotal]
        by_cases hyu : (y.userId == u) = true
        · have hu : ¬ u' = u := by
            intro he
            exact hy (by rw [he]; exact hyu)
          rw [if_pos hyu, if_pos hyu, if_neg hu]
          exact (Nat.add_zero _).symm
        · rw [if_neg hyu, if_neg hyu]
          exact ih

theorem keyTotal_mem {m : List WeeklyRow} {u : String}
    (h : ∃ r ∈ m, r.userId = u) :
    ∃ r ∈ m, r.userId = u ∧ r.total = keyTotal m u := by
  induction m with
  | nil =>
      obtain ⟨r, hr, _⟩ := h
      exact absurd hr (List.not_mem_nil r)
  | cons y rest ih =>
      by_cases hyu : (y.userId == u) = true
      · refine ⟨y, List.mem_cons_self _ _, by simpa using hyu, ?_⟩
        simp only [keyTotal]
        rw [if_pos hyu]
      · obtain ⟨r, hr, hx⟩ := h
        have hrrest : r ∈ rest := by
          rcases List.mem_cons.mp hr with he | hm
          · have hx2 : y.userId = u := by rw [← he]; exact hx
            exact absurd (by simp [hx2]) hyu
          · exact hm
        obtain ⟨r2, h2, h2x, h2t⟩ := ih ⟨r, hrrest, hx⟩
        refine ⟨r2, List.mem_cons.mpr (Or.inr h2), h2x, ?_⟩
        simp only [keyTotal]
        rw [if_neg hyu]
        exact h2t

theorem keyTotal_eq_zero (m : List WeeklyRow) (h : ∀ r ∈ m, r.total = 0)
    (u : String) : keyTotal m u = 0 := by
  induction m with
  | nil => rfl
  | cons y rest ih =>
      simp only [keyTotal]
      by_cases hyu : (y.userId == u) = true
      · rw [if_pos hyu]
        exact h y (List.mem_cons_self _ _)
      · rw [if_neg hyu]
        exact ih (fun r hr => h r (List.mem_cons.mpr (Or.inr hr)))

theorem keyTotal_weeklyStep (s e : String) (m : List WeeklyRow) (row : AssignRow)
    (u : String) :
    keyTotal (weeklyStep s e m row) u
      = keyTotal m u + (if (passRange s e row && row.userId == u) = true then 1 else 0) := by
  cases hrow : row.taskDate with
  | none => simp [weeklyStep, passRange, hrow]
  | some d =>
      simp only [weeklyStep, passRange, hrow]
      by_cases hc : strLe s d ∧ strLe d e
      · rw [if_pos hc, keyTotal_bumpWeekly]
        by_cases hu : row.userId = u
        · simp [hc, hu]
        · simp [hc, hu]
      · rw [if_neg hc]
        simp [hc]

theorem keyTotal_foldl_weeklyStep (s e : String) (data : List AssignRow)
    (m : List WeeklyRow) (u : String) :
    keyTotal (data.foldl (weeklyStep s e) m) u
      = keyTotal m u + data.countP (fun row => passRange s e row && row.userId == u) := by
  induction data generalizing m with
  | nil => simp
  | cons row rows ih =>
      simp only [List.foldl_cons, List.countP_cons, ih, keyTotal_weeklyStep]
      by_cases hp : (passRange s e row && row.userId == u) = true
      · simp only [hp, if_pos]
        omega
      · simp only [hp, if_neg, Bool.not_eq_true]
        omega

theorem keyTotal_seed (workers : List WorkerP) (u : String) :
    keyTotal (seedWeekly workers) u = 0 :=
  keyTotal_eq_zero (seedWeekly workers)
    (seed_prop (fun r => r.total = 0) (fun _ => rfl) workers []
      (fun r2 hr2 => absurd hr2 (List.not_mem_nil r2))) u

/-- C4 counterexample.  The claim says the rotation summary includes every
active worker even with zero assignments.  The tsx `loadWeeklyRotation`
builds its rows only from the fetched assignment rows and never consults
the worker list: for a week with no assignments it returns no rows at all,
so an active worker (here "Alice", known to the profile map) does not
appear with total 0 — she does not appear at all. -/
theorem loadWeeklyRotation_omits_idle_workers :
    loadWeeklyRotation [] (fun u => if u == "w1" then some "Alice" else none) = []
    ∧ ¬ ∃ r ∈ loadWeeklyRotation [] (fun u => if u == "w1" then some "Alice" else none),
        r.worker = "Alice" := by
  have h0 : loadWeeklyRotation [] (fun u => if u == "w1" then some "Alice" else none) = [] :=
    rfl
  refine ⟨h0, ?_⟩
  rintro ⟨r, hr, _⟩
  rw [h0] at hr
  exact absurd hr (List.not_mem_nil r)

/-- C4 (amended): part_002's weekly summary does satisfy the claim, as long
as at least one worker profile is loaded (with no workers it short-circuits
to an empty summary, discarding the assignment rows): every loaded worker
appears in the result with a row whose total is exactly that worker's own
count of assignment rows falling in the queried range — in particular a
worker with zero such rows appears with total 0 — and the per-worker totals
sum to exactly the number of assignment rows in the range.  The tsx
`loadWeeklyRotation` does not satisfy the claim (see the counterexample). -/
theorem weeklySummary_includes_all_workers (workers : List WorkerP)
    (data : List AssignRow) (s e : String) (h : workers ≠ []) :
    (∀ w ∈ workers, ∃ r ∈ summarizeRange workers data s e,
        r.userId = w.userId
        ∧ r.total = data.countP (fun row => passRange s e row && row.userId == w.userId))
    ∧ totSum (summarizeRange workers data s e) = data.countP (passRange s e) := by
  have hne : ¬ workers.isEmpty = true := by
    cases workers with
    | nil => exact absurd rfl h
    | cons w ws => simp [List.isEmpty]
  constructor
  · intro w hw
    rw [summarizeRange, if_neg hne]
    obtain ⟨r, hmem, hru, hrt⟩ :=
      keyTotal_mem (hasKey_foldl_weeklyStep data (seedWeekly workers)
        (seed_hasKey_aux workers [] w.userId (Or.inr ⟨w, hw, rfl⟩)))
    refine ⟨r, (List.mem_insertionSort nameLe).mpr hmem, hru, ?_⟩
    rw [hrt, keyTotal_foldl_weeklyStep, keyTotal_seed]
    exact Nat.zero_add _
  · rw [summarizeRange, if_neg hne, totSum_insertionSort, totSum_foldl_weeklyStep]
    rw [totSum_eq_zero (seedWeekly workers)
      (seed_prop (fun r => r.total = 0) (fun _ => rfl) workers []
        (fun r hr => absurd hr (List.not_mem_nil r)))]
    exact Nat.zero_add _

/-- Witness for the C4 amended theorem at a concrete input: two workers,
one of whom has the single in-range assignment row; the loaded worker
appears with total 1, the zero-load worker appears with total 0, and the
totals sum to 1. -/
theorem weeklySummary_includes_all_workers_witness :
    (([⟨"u", some "A"⟩, ⟨"v", some "B"⟩] : List WorkerP) ≠ [])
    ∧ (∀ w ∈ ([⟨"u", some "A"⟩, ⟨"v", some "B"⟩] : List WorkerP),
        ∃ r ∈ summarizeRange [⟨"u", some "A"⟩, ⟨"v", some "B"⟩]
            [⟨"u", some "d", some "R"⟩] "a" "z",
          r.userId = w.userId
          ∧ r.total = List.countP
              (fun row => passRange "a" "z" row && row.userId == w.userId)
              [⟨"u", some "d", some "R"⟩])
    ∧ totSum (summarizeRange [⟨"u", some "A"⟩, ⟨"v", some "B"⟩]
          [⟨"u", some "d", some "R"⟩] "a" "z")
        = List.countP (passRange "a" "z") [⟨"u", some "d", some "R"⟩] :=
  ⟨by decide,
    (weeklySummary_includes_all_workers [⟨"u", some "A"⟩, ⟨"v", some "B"⟩]
      [⟨"u", some "d", some "R"⟩] "a" "z" (by decide)).1,
    (weeklySummary_includes_all_workers [⟨"u", some "A"⟩, ⟨"v", some "B"⟩]
      [⟨"u", some "d", some "R"⟩] "a" "z" (by decide)).2⟩

/-- C9 counterexample.  The claim says the aggregation fails with
InvalidRange exactly when endDate < startDate.  No implementation validates
the range or has any InvalidRange error: on the reversed range
("z", "a") part_002's aggregation succeeds and returns the seeded summary
(every worker with total 0) instead of failing. -/
theorem summarize_succeeds_on_reversed_range :
    summarizeRange [⟨"u", some "A"⟩] [⟨"u", some "d", some "R"⟩] "z" "a"
      = [⟨"u", "A", 0, []⟩] := by
  decide

/-- C9 (amended): the weekly aggregation performs no writes and never fails
on the date range: there is no range validation and no InvalidRange.  A
range with endDate < startDate simply matches no assignment rows — the
result is the same as for an empty assignment list, and every returned row
has total 0 and no per-day cells. -/
theorem summarize_malformed_range_total (workers : List WorkerP)
    (data : List AssignRow) (s e : String) (h : strLt e s) :
    summarizeRange workers data s e = summarizeRange workers [] s e
    ∧ (summarizeRange workers data s e).Forall (fun r => r.total = 0 ∧ r.perDay = []) := by
  have hstep : ∀ m row, weeklyStep s e m row = m := by
    intro m row
    cases hrow : row.taskDate with
    | none => simp [weeklyStep, hrow]
    | some d =>
        simp only [weeklyStep, hrow]
        rw [if_neg]
        rintro ⟨h1, h2⟩
        exact absurd (lt_of_lt_of_le h (le_trans (α := List Char) h1 h2))
          (lt_irrefl e.data)
  have hfold : ∀ (dl : List AssignRow) m, dl.foldl (weeklyStep s e) m = m := by
    intro dl
    induction dl with
    | nil => intro m; rfl
    | cons row rows ih => intro m; rw [List.foldl_cons, hstep m row]; exact ih m
  constructor
  · rw [summarizeRange, summarizeRange, hfold, List.foldl_nil]
  · rw [List.forall_iff_forall_mem]
    intro r hr
    rw [summarizeRange] at hr
    by_cases hw : workers.isEmpty = true
    · rw [if_pos hw] at hr
      exact absurd hr (List.not_mem_nil r)
    · rw [if_neg hw, hfold] at hr
      exact seed_prop (fun r => r.total = 0 ∧ r.perDay = []) (fun _ => ⟨rfl, rfl⟩)
        workers [] (fun r hr => absurd hr (List.not_mem_nil r)) r
        ((List.mem_insertionSort nameLe).mp hr)

/-- Witness for the C9 amended theorem at a concrete input: the reversed
range ("z", "a") with one worker and one assignment row. -/
theorem summarize_malformed_range_total_witness :
    strLt "a" "z"
    ∧ summarizeRange [⟨"u", some "A"⟩] [⟨"u", some "d", some "R"⟩] "z" "a"
        = summarizeRange [⟨"u", some "A"⟩] [] "z" "a"
    ∧ (summarizeRange [⟨"u", some "A"⟩] [⟨"u", some "d", some "R"⟩] "z" "a").Forall
        (fun r => r.total = 0 ∧ r.perDay = []) :=
  ⟨by decide,
    (summarize_malformed_range_total [⟨"u", some "A"⟩] [⟨"u", some "d", some "R"⟩]
      "z" "a" (by decide)).1,
    (summarize_malformed_range_total [⟨"u", some "A"⟩] [⟨"u", some "d", some "R"⟩]
      "z" "a" (by decide)).2⟩

theorem pushRoom_nodup {rooms : List String} (h : rooms.Nodup) (room : Option String) :
    (pushRoom rooms room).Nodup := by
  cases room with
  | none => exact h
  | some name =>
      simp only [pushRoom]
      by_cases hc : rooms.contains name = true
      · rw [if_pos hc]; exact h
      · rw [if_neg hc]
        have hnm : name ∉ rooms := by simpa using hc
        refine List.Nodup.append h (List.nodup_singleton name) ?_
        intro a ha ha2
        rw [List.mem_singleton] at ha2
        subst ha2
        exact hnm ha

theorem bumpDay_nodup {pd : List (String × DayCell)}
    (h : ∀ p ∈ pd, p.2.rooms.Nodup) (d : String) (room : Option String) :
    ∀ p ∈ bumpDay pd d room, p.2.rooms.Nodup := by
  induction pd with
  | nil =>
      intro p hp
      simp only [bumpDay] at hp
      rw [List.mem_singleton] at hp
      subst hp
      exact pushRoom_nodup List.nodup_nil room
  | cons q rest ih =>
      intro p hp
      obtain ⟨k, c⟩ := q
      simp only [bumpDay] at hp
      by_cases hk : (k == d) = true
      · rw [if_pos hk] at hp
        rcases List.mem_cons.mp hp with he | hm
        · subst he
          exact pushRoom_nodup (h (k, c) (List.mem_cons_self _ _)) room
        · exact h p (List.mem_cons.mpr (Or.inr hm))
      · rw [if_neg hk] at hp
        rcases List.mem_cons.mp hp with he | hm
        · subst he
          exact h _ (List.mem_cons_self _ _)
        · exact ih (fun p2 hp2 => h p2 (List.mem_cons.mpr (Or.inr hp2))) p hm

theorem bumpWeekly_dedup {m : List WeeklyRow}
    (h : ∀ r ∈ m, ∀ p ∈ r.perDay, p.2.rooms.Nodup) (u d : String) (room : Option String) :
    ∀ r ∈ bumpWeekly m u d room, ∀ p ∈ r.perDay, p.2.rooms.Nodup := by
  induction m with
  | nil =>
      intro r hr
      simp only [bumpWeekly] at hr
      rw [List.mem_singleton] at hr
      subst hr
      exact bumpDay_nodup (fun p hp => absurd hp (List.not_mem_nil p)) d room
  | cons y rest ih =>
      intro r hr
      simp only [bumpWeekly] at hr
      by_cases hy : (y.userId == u) = true
      · rw [if_pos hy] at hr
        rcases List.mem_cons.mp hr with he | hm
        · subst he
          exact bumpDay_nodup (h y (List.mem_cons_self _ _)) d room
        · exact h r (List.mem_cons.mpr (Or.inr hm))
      · rw [if_neg hy] at hr
        rcases List.mem_cons.mp hr with he | hm
        · subst he
          exact h _ (List.mem_cons_self _ _)
        · exact ih (fun r2 hr2 => h r2 (List.mem_cons.mpr (Or.inr hr2))) r hm

theorem weeklyStep_dedup {s e : String} {m : List WeeklyRow}
    (h : ∀ r ∈ m, ∀ p ∈ r.perDay, p.2.rooms.Nodup) (row : AssignRow) :
    ∀ r ∈ weeklyStep s e m row, ∀ p ∈ r.perDay, p.2.rooms.Nodup := by
  cases hrow : row.taskDate with
  | none => simpa [weeklyStep, hrow] using h
  | some d =>
      simp only [weeklyStep, hrow]
      split
      · exact bumpWeekly_dedup h _ _ _
      · exact h

theorem foldl_weeklyStep_dedup {s e : String} (data : List AssignRow)
    (m : List WeeklyRow) (h : ∀ r ∈ m, ∀ p ∈ r.perDay, p.2.rooms.Nodup) :
    ∀ r ∈ data.foldl (weeklyStep s e) m, ∀ p ∈ r.perDay, p.2.rooms.Nodup := by
  induction data generalizing m with
  | nil => exact h
  | cons row rows ih =>
      simp only [List.foldl_cons]
      exact ih _ (weeklyStep_dedup h row)

/-- C5 counterexample.  The claim says room names within each group are
deduplicated and sorted.  The tsx `loadWeeklyRotation` pushes room names
without any deduplication: two assignments of the same worker on the same
date to the same room produce the rooms list ["R", "R"]. -/
theorem loadWeeklyRotation_keeps_duplicate_rooms :
    loadWeeklyRotation [⟨"u", some "d", some "R"⟩, ⟨"u", some "d", some "R"⟩]
        (fun u => if u == "u" then some "W" else none)
      = [⟨"d", "W", ["R", "R"], 2⟩]
    ∧ ¬ (loadWeeklyRotation [⟨"u", some "d", some "R"⟩, ⟨"u", some "d", some "R"⟩]
          (fun u => if u == "u" then some "W" else none)).Forall
        (fun r => r.rooms.Nodup) := by
  constructor
  · decide
  · decide

/-- C5 (amended): the two implementations each satisfy half the claim.
The tsx `loadWeeklyRotation` groups by (taskDate, worker display name),
sorts each group's room list but does not deduplicate it, and orders the
result by date then worker name.  part_002's weekly summary groups by
(workerId, taskDate), deduplicates the room names of every per-day cell
but keeps them in insertion order (not sorted), and orders the top-level
result by worker display name ascending. -/
theorem rotation_grouping_order_dedup :
    (∀ (data : List AssignRow) (pm : String → Option String),
        (loadWeeklyRotation data pm).Forall (fun r => r.rooms.Sorted strLe))
    ∧ (∀ (data : List AssignRow) (pm : String → Option String),
        (loadWeeklyRotation data pm).Sorted dateWorkerLe)
    ∧ (∀ (workers : List WorkerP) (data : List AssignRow) (s e : String),
        (summarizeRange workers data s e).Forall
          (fun r => r.perDay.Forall (fun p => p.2.rooms.Nodup)))
    ∧ (∀ (workers : List WorkerP) (data : List AssignRow) (s e : String),
        (summarizeRange workers data s e).Sorted nameLe) := by
  refine ⟨?_, ?_, ?_, ?_⟩
  · intro data pm
    rw [List.forall_iff_forall_mem]
    intro r hr
    rw [loadWeeklyRotation] at hr
    obtain ⟨r0, _, he⟩ :=
      List.mem_map.mp ((List.mem_insertionSort dateWorkerLe).mp hr)
    rw [← he]
    exact List.sorted_insertionSort strLe r0.rooms
  · intro data pm
    rw [loadWeeklyRotation]
    exact List.sorted_insertionSort dateWorkerLe _
  · intro workers data s e
    rw [List.forall_iff_forall_mem]
    intro r hr
    rw [List.forall_iff_forall_mem]
    rw [summarizeRange] at hr
    by_cases hw : workers.isEmpty = true
    · rw [if_pos hw] at hr
      exact absurd hr (List.not_mem_nil r)
    · rw [if_neg hw] at hr
      exact foldl_weeklyStep_dedup data (seedWeekly workers)
        (seed_prop (fun r => ∀ p ∈ r.perDay, p.2.rooms.Nodup)
          (fun _ p hp => absurd hp (List.not_mem_nil p)) workers []
          (fun r2 hr2 => absurd hr2 (List.not_mem_nil r2)))
        r ((List.mem_insertionSort nameLe).mp hr)
  · intro workers data s e
    rw [summarizeRange]
    by_cases hw : workers.isEmpty = true
    · rw [if_pos hw]
      exact List.sorted_nil
    · rw [if_neg hw]
      exact List.sorted_insertionSort nameLe _

theorem genLoop_tasks_subset (date : Int) (crewSize : Nat) :
    ∀ (rs : List Room) (st : GenState) (loads : List (GWorker × Nat)) (tc ac : Nat)
      {t : TaskRow}, t ∈ st.tasks →
      t ∈ (genLoop date crewSize rs st loads tc ac).1.tasks := by
  intro rs
  induction rs with
  | nil =>
      intro st loads tc ac t ht
      simpa [genLoop] using ht
  | cons r rs ih =>
      intro st loads tc ac t ht
      simp only [genLoop]
      apply ih
      exact List.mem_append.mpr (Or.inl ht)

theorem genLoop_covers (date : Int) (crewSize : Nat) :
    ∀ (rs : List Room) (st : GenState) (loads : List (GWorker × Nat)) (tc ac : Nat)
      {r : Room}, r ∈ rs →
      ∃ t ∈ (genLoop date crewSize rs st loads tc ac).1.tasks,
        t.roomId = r.id ∧ t.taskDate = date := by
  intro rs
  induction rs with
  | nil =>
      intro st loads tc ac r hr
      exact absurd hr (List.not_mem_nil r)
  | cons r0 rs ih =>
      intro st loads tc ac r hr
      rcases List.mem_cons.mp hr with he | hm
      · subst he
        simp only [genLoop]
        refine ⟨⟨st.nextTaskId, date, r.id, carryLevel st r date, r.is_harvest⟩, ?_, rfl, rfl⟩
        apply genLoop_tasks_subset
        exact List.mem_append.mpr (Or.inr (List.mem_singleton.mpr rfl))
      · simp only [genLoop]
        exact ih _ _ _ _ hm

/-- C6 (spec-modelled): `generate(date)` is idempotent.  After a successful
run every active room is covered for the date, so a second run in
succession finds no pending rooms, creates no additional Tasks or
Assignments (counts (0, 0)), and leaves the store state unchanged. -/
theorem generate_idempotent (crewSize : Nat) (rooms : List Room)
    (workers : List GWorker) (rules : List AvailRow) (st : GenState) (date : Int)
    (st' : GenState) (c : Nat × Nat)
    (h : generate crewSize rooms workers rules st date = (st', Except.ok c)) :
    generate crewSize rooms workers rules st' date = (st', Except.ok (0, 0)) := by
  simp only [generate] at h ⊢
  by_cases he : (eligibleWorkers workers rules date).isEmpty = true
  · rw [if_pos he] at h
    simp at h
  · rw [if_neg he] at h
    rw [if_neg he]
    have hst : (generateRun crewSize rooms workers rules st date).1 = st' :=
      congrArg Prod.fst h
    have hcov : ∀ r ∈ rooms, roomCovered st' r date = true := by
      intro r hr
      by_cases hc : roomCovered st r date = true
      · obtain ⟨t, ht, hp⟩ := List.any_eq_true.mp hc
        refine List.any_eq_true.mpr ⟨t, ?_, hp⟩
        rw [← hst]
        exact genLoop_tasks_subset date crewSize _ st _ 0 0 ht
      · have hpend : r ∈ pendingRooms rooms st date := by
          rw [pendingRooms, List.mem_filter]
          exact ⟨hr, by simpa using hc⟩
        have hsort : r ∈ List.insertionSort roomIdLe (pendingRooms rooms st date) :=
          (List.mem_insertionSort roomIdLe).mpr hpend
        obtain ⟨t, ht, h1, h2⟩ := genLoop_covers date crewSize _ st _ 0 0 hsort
        refine List.any_eq_true.mpr ⟨t, ?_, by simp [h1, h2]⟩
        rw [← hst]
        exact ht
    have hpend2 : pendingRooms rooms st' date = [] := by
      rw [pendingRooms, List.filter_eq_nil_iff]
      intro r hr
      simp [hcov r hr]
    have hrun : generateRun crewSize rooms workers rules st' date = (st', 0, 0) := by
      rw [generateRun, hpend2]
      rfl
    rw [hrun]
  
/-- Witness for the C6 theorem: a concrete successful run (one room, one
worker, empty store) followed by the second run, which is a no-op success. -/
theorem generate_idempotent_witness :
    generate 1 [⟨1, "R", false⟩] [⟨"w", "W"⟩] [] ⟨[], [], 1, 1⟩ 4
      = (⟨[⟨1, 4, 1, 1, false⟩], [⟨1, 1, "w", .not_started, none, none⟩], 2, 2⟩,
          Except.ok (1, 1))
    ∧ generate 1 [⟨1, "R", false⟩] [⟨"w", "W"⟩] []
        ⟨[⟨1, 4, 1, 1, false⟩], [⟨1, 1, "w", .not_started, none, none⟩], 2, 2⟩ 4
      = (⟨[⟨1, 4, 1, 1, false⟩], [⟨1, 1, "w", .not_started, none, none⟩], 2, 2⟩,
          Except.ok (0, 0)) :=
  ⟨rfl,
    generate_idempotent 1 [⟨1, "R", false⟩] [⟨"w", "W"⟩] [] ⟨[], [], 1, 1⟩ 4
      ⟨[⟨1, 4, 1, 1, false⟩], [⟨1, 1, "w", .not_started, none, none⟩], 2, 2⟩ (1, 1) rfl⟩

/-- C7 (spec-modelled): when the eligible worker set for the date is empty,
`generate` fails fast with NoEligibleWorkers and returns the store state
unchanged; moreover every failing invocation of `generate` is of exactly
this shape (the only error exit precedes any creation), so a failure never
leaves partially created Task/Assignment state. -/
theorem generate_empty_eligible_fails (crewSize : Nat) (rooms : List Room)
    (workers : List GWorker) (rules : List AvailRow) (st : GenState) (date : Int) :
    (eligibleWorkers workers rules date = [] →
      generate crewSize rooms workers rules st date = (st, Except.error .NoEligibleWorkers))
    ∧ ∀ (st2 : GenState) (e : GenError),
        generate crewSize rooms workers rules st date = (st2, Except.error e) →
        st2 = st ∧ e = GenError.NoEligibleWorkers := by
  constructor
  · intro h
    simp [generate, h]
  · intro st2 e hg
    simp only [generate] at hg
    by_cases he : (eligibleWorkers workers rules date).isEmpty = true
    · rw [if_pos he] at hg
      obtain ⟨h1, h2⟩ := Prod.mk.injEq _ _ _ _ |>.mp hg
      refine ⟨h1.symm, ?_⟩
      cases e
      rfl
    · rw [if_neg he] at hg
      have h2 := congrArg Prod.snd hg
      simp at h2

/-- Witness for the C7 theorem: one worker who is off on the date's
weekday — the eligible set is empty and generation fails with
NoEligibleWorkers, leaving the empty store untouched. -/
theorem generate_empty_eligible_fails_witness :
    eligibleWorkers [⟨"w", "W"⟩] [⟨"w", 1, true⟩] 4 = []
    ∧ generate 1 [⟨1, "R", false⟩] [⟨"w", "W"⟩] [⟨"w", 1, true⟩] ⟨[], [], 1, 1⟩ 4
        = (⟨[], [], 1, 1⟩, Except.error GenError.NoEligibleWorkers) :=
  ⟨rfl,
    (generate_empty_eligible_fails 1 [⟨1, "R", false⟩] [⟨"w", "W"⟩] [⟨"w", 1, true⟩]
      ⟨[], [], 1, 1⟩ 4).1 rfl⟩

